import Mathlib

set_option maxHeartbeats 1000000

/-!
Shallow embedding of `go-kit/metrics/provider/librato/batcher.go` (package
`librato`): the two batching strategies (`oldBatcher.Batch`,
`taggedBatcher.Batch`), the measurement-to-gauge projection, the histogram
reduction `histogramMeasures`, and the statistics helpers
`squareOfDistanceFromMean` / `stddev`.

Modelling conventions:
- Go `float64` fields are modelled as `ℚ` where only structural equalities are
  at stake, and as `ℝ` in the statistics helpers (which take a square root).
- Go `int`/`int64` are modelled as `Int`.
- The in-place mutation of the caller's `*url.URL` and of the histogram
  accumulator is modelled by returning the post-state as an extra component.
- The chunking `for` loop of `Batch` is modelled fuel-style (`chunkLoop`);
  `none` stands for a run that does not terminate normally, which for the
  batch sizes the provider configures (positive) never happens.
- `json.Encoder.Encode` cannot fail on the envelope types involved and
  `http.NewRequest` cannot fail on a URL rendered from a parsed `url.URL`,
  so request construction is modelled as total; the `error` result of `Batch`
  is the `Option` layer of the first component.
-/

namespace librato

/-- Go `url.Userinfo`: username, password, and whether a password was set. -/
structure Userinfo where
  username : String
  password : String
  passwordSet : Bool
deriving DecidableEq

/-- Go `(u *url.Userinfo).Password()`: the password ("" when unset) and the
`ok` flag, as used by `p, _ := user.Password()` in `Batch`. -/
def Userinfo.Password (ui : Userinfo) : String × Bool :=
  if ui.passwordSet then (ui.password, true) else ("", false)

/-- The user-info component as it is rendered inside `url.URL.String()`:
`username` or `username:password`. -/
def Userinfo.toString (ui : Userinfo) : String :=
  if ui.passwordSet then ui.username ++ ":" ++ ui.password else ui.username

/-- The fields of Go `url.URL` that the batcher reads or writes. -/
structure URL where
  scheme : String
  user : Option Userinfo
  host : String
  path : String
deriving DecidableEq

/-- Go `(u *url.URL).String()`: `scheme://[userinfo@]host/path`. -/
def URL.toString (u : URL) : String :=
  u.scheme ++ "://" ++
    (match u.user with
     | some ui => Userinfo.toString ui ++ "@"
     | none => "") ++ u.host ++ u.path

/-- Go `u.ResolveReference(&url.URL{Path: p})` for the absolute paths
`/v1/metrics` and `/v1/measurements`: the result keeps the base URL's scheme,
user and host and takes the reference's path. -/
def URL.resolvePath (u : URL) (p : String) : URL :=
  { u with path := p }

def oldBatcherPath : String := "/v1/metrics"

def tagBatcherPath : String := "/v1/measurements"

/-- The provider configuration consumed by the batchers. -/
structure Provider where
  batchSize : Int
  source : String
  ssa : Bool
deriving DecidableEq

/-- The extended librato gauge format, used for all metric types in the old
batcher: struct `gauge` of the source. -/
structure gauge where
  Name : String
  Period : Int
  Count : Int
  Sum : ℚ
  Min : ℚ
  Max : ℚ
  SumSq : ℚ
deriving DecidableEq

/-- Struct `measurement` of the source, fields in source order. `Attributes`
(Go `map[string]interface{}`) and `Tags` (Go `map[string]string`) are modelled
as association lists; no claim inspects their contents. -/
structure measurement where
  Name : String
  Time : Int
  Period : Int
  Attributes : List (String × String)
  Tags : List (String × String)
  Sum : ℚ
  SumSq : ℚ
  Count : Int
  Min : ℚ
  Max : ℚ
  Last : ℚ
  StdDev : ℚ
deriving DecidableEq

/-- Source `func (m *measurement) Gauge() gauge`. -/
def measurement.Gauge (m : measurement) : gauge :=
  { Name := m.Name
    Period := m.Period
    Count := m.Count
    Sum := m.Sum
    Min := m.Min
    Max := m.Max
    SumSq := m.SumSq }

/-- The `nextEnd` closure of `Batch` (both dialects): advance the chunk end by
`batchSize`, clamped to the input length `l`. -/
def nextEnd (batchSize : Int) (l : Nat) (e : Int) : Int :=
  if e + batchSize > (l : Int) then (l : Int) else e + batchSize

/-- Go slicing `gs[batch:e]` for the in-range indices the loop produces. -/
def goSlice (gs : List α) (batch e : Int) : List α :=
  (gs.drop batch.toNat).take (e - batch).toNat

/-- The chunking `for` loop of `Batch`
(`for batch, e := 0, nextEnd(0); batch < len; batch, e = e, nextEnd(e)`),
fuel-indexed: `some` is the list of slices the loop body receives, `none`
means the fuel ran out before the loop condition turned false. -/
def chunkLoop (bs : Int) (gs : List α) : Nat → Int → Int → Option (List (List α))
  | 0, batch, _ =>
      if batch < (gs.length : Int) then none else some []
  | fuel + 1, batch, e =>
      if batch < (gs.length : Int) then
        (chunkLoop bs gs fuel e (nextEnd bs gs.length e)).map
          (fun rest => goSlice gs batch e :: rest)
      else some []

/-- The chunking loop of `Batch`, run from its initial state
(`batch = 0`, `e = nextEnd(0)`) with enough fuel for every terminating run. -/
def chunks (bs : Int) (gs : List α) : Option (List (List α)) :=
  chunkLoop bs gs gs.length 0 (nextEnd bs gs.length 0)

/-- The chunking loop terminates: some finite fuel makes it reach the exit
condition instead of running out. -/
def BatchLoopTerminates (bs : Int) (gs : List α) : Prop :=
  ∃ fuel : Nat, (chunkLoop bs gs fuel 0 (nextEnd bs gs.length 0)).isSome

/-- The JSON envelope of one old-dialect request
(`{source?, measure_time, gauges, attributes?}`); the single attribute ever
set is `aggregate: true` under single-sample-aggregate mode. -/
structure OldBody where
  source : String
  measureTime : Int
  gauges : List gauge
  attributes : Option (String × Bool)
deriving DecidableEq

/-- The JSON envelope of one tagged-dialect request (`{measurements}`). -/
structure TaggedBody where
  measurements : List measurement
deriving DecidableEq

/-- An `*http.Request` as built by `Batch`: POST to the rendered URL with the
encoded envelope as body; `basicAuth` models the credentials attached by
`req.SetBasicAuth`, `none` when no user-info was present. -/
structure Request (β : Type) where
  method : String
  url : URL
  body : β
  basicAuth : Option (String × String)
  contentType : String
deriving DecidableEq

structure oldBatcher where
  p : Provider
deriving DecidableEq

structure taggedBatcher where
  p : Provider
deriving DecidableEq

/-- The loop body of the old-dialect `Batch` for one chunk: encode the
envelope and build the POST request with basic auth and content type. -/
def mkOldRequest (p : Provider) (u2 : URL) (st : Int) (user : Option Userinfo)
    (chunk : List gauge) : Request OldBody :=
  { method := "POST"
    url := u2
    body :=
      { source := p.source
        measureTime := st
        gauges := chunk
        attributes := if p.ssa then some ("aggregate", true) else none }
    basicAuth := user.map (fun ui => (ui.username, ui.Password.1))
    contentType := "application/json" }

/-- The loop body of the tagged-dialect `Batch` for one chunk. -/
def mkTaggedRequest (u2 : URL) (user : Option Userinfo)
    (chunk : List measurement) : Request TaggedBody :=
  { method := "POST"
    url := u2
    body := { measurements := chunk }
    basicAuth := user.map (fun ui => (ui.username, ui.Password.1))
    contentType := "application/json" }

/-- Source `func (b *oldBatcher) Batch(u *url.URL, interval time.Duration)`.
`st` is the truncated sample time (wall clock, external) and `measurements`
the sampler's result (external collaborator), both passed in as parameters.
Returns the requests (`none` = the loop does not terminate normally) and the
post-state of the caller's URL object. -/
def oldBatcher.Batch (b : oldBatcher) (u : URL) (st : Int)
    (measurements : List measurement) :
    Option (List (Request OldBody)) × URL :=
  let gauges := measurements.map measurement.Gauge
  if gauges.length = 0 then
    (some [], u)
  else
    let user := u.user
    let u' : URL := { u with user := none }
    let u2 := u'.resolvePath oldBatcherPath
    ((chunks b.p.batchSize gauges).map
      (fun cs => cs.map (mkOldRequest b.p u2 st user)), u')

/-- Source `func (b *taggedBatcher) Batch(u *url.URL, interval time.Duration)`. -/
def taggedBatcher.Batch (b : taggedBatcher) (u : URL)
    (measurements : List measurement) :
    Option (List (Request TaggedBody)) × URL :=
  if measurements.length = 0 then
    (some [], u)
  else
    let user := u.user
    let u' : URL := { u with user := none }
    let u2 := u'.resolvePath tagBatcherPath
    ((chunks b.p.batchSize measurements).map
      (fun cs => cs.map (mkTaggedRequest u2 user)), u')

/-- Modelled from the spec: the histogram accumulator (`Histogram` lives
outside this file; only its use in `histogramMeasures` is in the source).
Running count, sum, min, max, sum-of-squares, the metric name with the
percentile-suffix separator, and the streaming quantile estimator
(`h.h.Quantile`), modelled as a function from quantile to estimate. -/
structure Histogram where
  name : String
  percentilePfx : String
  count : Int
  sum : ℚ
  min : ℚ
  max : ℚ
  sumsq : ℚ
  quantile : ℚ → ℚ

/-- Modelled from the spec: `h.metricName()` — the name the reduction reports. -/
def Histogram.metricName (h : Histogram) : String :=
  h.name

/-- Modelled from the spec: `h.reset()` zeroes all running scalars and clears
the quantile estimator. -/
def Histogram.reset (h : Histogram) : Histogram :=
  { h with
    count := 0
    sum := 0
    min := 0
    max := 0
    sumsq := 0
    quantile := fun _ => 0 }

/-- Source `func (b *oldBatcher) histogramMeasures(h *Histogram, period int)`:
snapshot the scalars and the three quantile estimates, reset, and build the
aggregate plus the three percentile point gauges. The lock acquire/release
bracketing the snapshot and reset has no sequential content; the mutation of
`h` is the returned post-state. -/
def histogramMeasures (h : Histogram) (period : Int) :
    List gauge × Histogram :=
  if h.count = 0 then
    ([], h)
  else
    let count := h.count
    let sum := h.sum
    let mn := h.min
    let mx := h.max
    let sumsq := h.sumsq
    let name := h.metricName
    let percs : List (String × ℚ) :=
      [(name ++ h.percentilePfx ++ "99", h.quantile (99 / 100)),
       (name ++ h.percentilePfx ++ "95", h.quantile (95 / 100)),
       (name ++ h.percentilePfx ++ "50", h.quantile (50 / 100))]
    let h' := h.reset
    let m : List gauge :=
      { Name := name, Period := period, Count := count,
        Sum := sum, Min := mn, Max := mx, SumSq := sumsq } ::
      percs.map (fun perc =>
        { Name := perc.1, Period := period, Count := 1,
          Sum := perc.2, Min := perc.2, Max := perc.2,
          SumSq := perc.2 * perc.2 })
    (m, h')

/-! ### Reference chunking, statistics helpers, and concrete inputs -/

/-- Contiguous chunking with chunk size `b + 1` (so the size is positive by
construction): the closed form the loop of `Batch` computes. -/
def chunksPos (b : Nat) : List α → List (List α)
  | [] => []
  | x :: xs => (x :: xs).take (b + 1) :: chunksPos b (xs.drop b)
termination_by l => l.length
decreasing_by simp only [List.length_drop, List.length_cons]; omega

/-- Source `func squareOfDistanceFromMean(sum, sumSquares, n float64) float64`. -/
noncomputable def squareOfDistanceFromMean (sum sumSquares n : ℝ) : ℝ :=
  sumSquares - sum ^ 2 / n

/-- Source `func stddev(sum, sumSquares float64, count int64) float64`. -/
noncomputable def stddev (sum sumSquares : ℝ) (count : Int) : ℝ :=
  Real.sqrt (squareOfDistanceFromMean sum sumSquares (count : ℝ) / (count : ℝ))

/-- What claim C1 asserts of one provider configuration, URL, sample time and
measurement sequence: both dialects of `Batch` return exactly `⌈L/B⌉`
requests, the `i`-th request's body carries the contiguous items
`[i*B, min((i+1)*B, L))`, every chunk has at most `B` items with only the
last possibly smaller, and the chunks concatenate back to the input
in order. -/
def ChunkingSpec (p : Provider) (u : URL) (st : Int)
    (ms : List measurement) : Prop :=
  ∃ reqsO reqsT,
    (oldBatcher.Batch ⟨p⟩ u st ms).1 = some reqsO ∧
    (taggedBatcher.Batch ⟨p⟩ u ms).1 = some reqsT ∧
    reqsO.length = (ms.length + p.batchSize.toNat - 1) / p.batchSize.toNat ∧
    reqsT.length = (ms.length + p.batchSize.toNat - 1) / p.batchSize.toNat ∧
    (∀ i : Nat, i < reqsO.length →
      reqsO[i]?.map (fun r => r.body.gauges) =
        some (((ms.map measurement.Gauge).drop (i * p.batchSize.toNat)).take
          p.batchSize.toNat)) ∧
    (∀ i : Nat, i < reqsT.length →
      reqsT[i]?.map (fun r => r.body.measurements) =
        some ((ms.drop (i * p.batchSize.toNat)).take p.batchSize.toNat)) ∧
    (∀ r ∈ reqsO, r.body.gauges.length ≤ p.batchSize.toNat) ∧
    (∀ r ∈ reqsT, r.body.measurements.length ≤ p.batchSize.toNat) ∧
    (∀ i : Nat, i + 1 < reqsO.length →
      reqsO[i]?.map (fun r => r.body.gauges.length) = some p.batchSize.toNat) ∧
    (∀ i : Nat, i + 1 < reqsT.length →
      reqsT[i]?.map (fun r => r.body.measurements.length) =
        some p.batchSize.toNat) ∧
    (reqsO.map (fun r => r.body.gauges)).flatten = ms.map measurement.Gauge ∧
    (reqsT.map (fun r => r.body.measurements)).flatten = ms

/-- What claim C2 asserts of one configuration, URL with user-info `ui`,
sample time and measurement sequence: every request either dialect returns
has no user-info component in its URL (so the rendered URL string is exactly
`scheme://host/path`), and carries the extracted username and password as
HTTP Basic Auth. -/
def CredSpec (p : Provider) (u : URL) (ui : Userinfo) (st : Int)
    (ms : List measurement) : Prop :=
  (∃ reqs, (oldBatcher.Batch ⟨p⟩ u st ms).1 = some reqs ∧
    ∀ r ∈ reqs, r.url.user = none ∧
      r.url.toString = u.scheme ++ "://" ++ u.host ++ oldBatcherPath ∧
      r.basicAuth = some (ui.username, ui.Password.1)) ∧
  (∃ reqs, (taggedBatcher.Batch ⟨p⟩ u ms).1 = some reqs ∧
    ∀ r ∈ reqs, r.url.user = none ∧
      r.url.toString = u.scheme ++ "://" ++ u.host ++ tagBatcherPath ∧
      r.basicAuth = some (ui.username, ui.Password.1))

/-- A concrete measurement, used to instantiate hypotheses of the proved
theorems. -/
def mWit : measurement :=
  { Name := "latency"
    Time := 7
    Period := 60
    Attributes := [("display", "seconds")]
    Tags := [("region", "us")]
    Sum := 10
    SumSq := 40
    Count := 5
    Min := 1
    Max := 4
    Last := 3
    StdDev := 2 }

/-- The measurement `mWit` with different tags, attributes, last and standard deviation. -/
def mWit2 : measurement :=
  { mWit with Tags := [], Attributes := [], Last := 99, StdDev := 77 }

/-- A second and third concrete measurement. -/
def mWitB : measurement := { mWit with Name := "rps", Sum := 3 }

def mWitC : measurement := { mWit with Name := "errors", Sum := 0 }

def msWit : List measurement := [mWit, mWitB, mWitC]

/-- A concrete provider configuration with batch size 2. -/
def pWit : Provider := { batchSize := 2, source := "web.1", ssa := true }

/-- Concrete embedded credentials. -/
def uiWit : Userinfo :=
  { username := "alice", password := "hunter", passwordSet := true }

/-- A concrete endpoint URL carrying embedded user-info. -/
def uWit : URL :=
  { scheme := "https"
    user := some uiWit
    host := "metrics-api.librato.com"
    path := "/" }

/-- A concrete gauge. -/
def gWit : gauge :=
  { Name := "g", Period := 60, Count := 1, Sum := 2, Min := 2, Max := 2,
    SumSq := 4 }

/-- A concrete histogram accumulator with no observations. -/
def hWit0 : Histogram :=
  { name := "req.time", percentilePfx := ".p", count := 0, sum := 0, min := 0,
    max := 0, sumsq := 0, quantile := fun _ => 0 }

/-- A concrete histogram accumulator with three observations (1, 2, 3). -/
def hWit3 : Histogram :=
  { name := "req.time", percentilePfx := ".p", count := 3, sum := 6, min := 1,
    max := 3, sumsq := 14, quantile := fun _ => 2 }

/-! ### An interleaving model of the histogram critical section

`histogramMeasures` brackets the snapshot of the scalars, the three quantile
computations and `h.reset()` between one `h.mu.Lock()` (line 104) and one
`h.mu.Unlock()` (line 124), with no release in between.  The model below
reads that body off as the atomic action sequence `reducerProg` and runs it
against a concurrent thread performing observation-recording transactions
(modelled from the spec: the accumulator is "guarded by a single exclusive
lock per histogram" and "mutated by every observation", so one observation
is lock–update–unlock).  A mutex action `lock` is enabled only when the
mutex is free; every other action is always enabled for the thread whose
turn it is, so mutual exclusion is not baked into the semantics — it has to
follow from the lock discipline of the two programs. -/

/-- The two threads: the reduction call and an observation-recording call. -/
inductive Tid where
  | reducer
  | observer
deriving DecidableEq

/-- The atomic actions of the model. -/
inductive Act where
  | lock
  | unlock
  | snapshot
  | reset
  | update
deriving DecidableEq

/-- A configuration: who holds the histogram's mutex, and the remaining
programs of the two threads. -/
structure Conf where
  owner : Option Tid
  rprog : List Act
  oprog : List Act
deriving DecidableEq

/-- The body of `histogramMeasures` on the `count > 0` path, lines 104-124:
acquire, snapshot the scalars and quantiles, reset, release. -/
def reducerProg : List Act :=
  [Act.lock, Act.snapshot, Act.reset, Act.unlock]

/-- Modelled from the spec: `m` observation-recording calls, each one
acquiring the histogram's exclusive lock, updating the accumulator, and
releasing. -/
def observerProg : Nat → List Act
  | 0 => []
  | m + 1 => Act.lock :: Act.update :: Act.unlock :: observerProg m

/-- One interleaving step: a thread executes the head of its program.
`lock` requires the mutex to be free; `unlock` requires the thread to hold
it (Go mutexes fault otherwise); any other action runs regardless of the
mutex state. -/
inductive Step : Conf → Tid × Act → Conf → Prop where
  | rlock (r o) :
      Step ⟨none, Act.lock :: r, o⟩ (Tid.reducer, Act.lock)
        ⟨some Tid.reducer, r, o⟩
  | runlock (r o) :
      Step ⟨some Tid.reducer, Act.unlock :: r, o⟩ (Tid.reducer, Act.unlock)
        ⟨none, r, o⟩
  | rplain (w r o a) (h1 : a ≠ Act.lock) (h2 : a ≠ Act.unlock) :
      Step ⟨w, a :: r, o⟩ (Tid.reducer, a) ⟨w, r, o⟩
  | olock (r o) :
      Step ⟨none, r, Act.lock :: o⟩ (Tid.observer, Act.lock)
        ⟨some Tid.observer, r, o⟩
  | ounlock (r o) :
      Step ⟨some Tid.observer, r, Act.unlock :: o⟩ (Tid.observer, Act.unlock)
        ⟨none, r, o⟩
  | oplain (w r o a) (h1 : a ≠ Act.lock) (h2 : a ≠ Act.unlock) :
      Step ⟨w, r, a :: o⟩ (Tid.observer, a) ⟨w, r, o⟩

/-- A finite execution: the trace of executed events between two
configurations. -/
inductive Exec : Conf → List (Tid × Act) → Conf → Prop where
  | nil (c) : Exec c [] c
  | cons (c c' c'' e tr) : Step c e c' → Exec c' tr c'' → Exec c (e :: tr) c''

/-- The reducer is inside its critical section (lock taken, not yet
released). -/
def RMid (r : List Act) : Prop :=
  r = [Act.snapshot, Act.reset, Act.unlock] ∨ r = [Act.reset, Act.unlock] ∨
    r = [Act.unlock]

/-- The observer is inside one of its critical sections. -/
def OMid (o : List Act) : Prop :=
  ∃ m, o = Act.update :: Act.unlock :: observerProg m ∨
    o = Act.unlock :: observerProg m

/-- The reachability invariant: the programs are suffixes of the initial
ones, and the mutex owner is exactly the thread inside its critical
section. -/
def Inv (c : Conf) : Prop :=
  (c.rprog = reducerProg ∨ RMid c.rprog ∨ c.rprog = []) ∧
  ((∃ m, c.oprog = observerProg m) ∨ OMid c.oprog) ∧
  (c.owner = some Tid.reducer ↔ RMid c.rprog) ∧
  (c.owner = some Tid.observer ↔ OMid c.oprog)

/-- A concrete interleaved trace: the reduction runs to completion, then one
observation is recorded. -/
def trWit : List (Tid × Act) :=
  [(Tid.reducer, Act.lock), (Tid.reducer, Act.snapshot),
   (Tid.reducer, Act.reset), (Tid.reducer, Act.unlock),
   (Tid.observer, Act.lock), (Tid.observer, Act.update),
   (Tid.observer, Act.unlock)]

/-! ### Lemmas about the chunking loop -/

theorem chunksPos_nil (b : Nat) : chunksPos b ([] : List α) = [] := by
  simp [chunksPos]

theorem chunksPos_cons (b : Nat) (x : α) (xs : List α) :
    chunksPos b (x :: xs) = (x :: xs).take (b + 1) :: chunksPos b (xs.drop b) := by
  simp [chunksPos]

theorem chunksPos_flatten (b : Nat) : (l : List α) → (chunksPos b l).flatten = l
  | [] => by simp [chunksPos_nil]
  | x :: xs => by
    rw [chunksPos_cons, List.flatten_cons, chunksPos_flatten b (xs.drop b),
      List.take_succ_cons]
    simp [List.take_append_drop]
termination_by l => l.length
decreasing_by simp only [List.length_drop, List.length_cons]; omega

theorem chunksPos_length (b : Nat) :
    (l : List α) → (chunksPos b l).length = (l.length + b) / (b + 1)
  | [] => by
    simp only [chunksPos_nil, List.length_nil]
    rw [Nat.div_eq_of_lt (by omega)]
  | x :: xs => by
    rw [chunksPos_cons]
    simp only [List.length_cons, chunksPos_length b (xs.drop b), List.length_drop]
    rcases le_or_lt b xs.length with h | h
    · have h1 : xs.length - b + b = xs.length := by omega
      have h2 : xs.length + 1 + b = xs.length + (b + 1) := by omega
      rw [h1, h2, Nat.add_div_right _ (Nat.succ_pos b)]
    · have h1 : xs.length - b = 0 := by omega
      have h2 : (0 + b) / (b + 1) = 0 := Nat.div_eq_of_lt (by omega)
      have h3 : (xs.length + 1 + b) / (b + 1) = 1 :=
        Nat.div_eq_of_lt_le (by omega) (by omega)
      rw [h1, h2, h3]
termination_by l => l.length
decreasing_by simp only [List.length_drop, List.length_cons]; omega

theorem chunksPos_getElem (b : Nat) :
    (l : List α) → (i : Nat) → i < (chunksPos b l).length →
      (chunksPos b l)[i]? = some ((l.drop (i * (b + 1))).take (b + 1))
  | [], i, hi => by simp [chunksPos_nil] at hi
  | x :: xs, 0, hi => by
    rw [chunksPos_cons]
    simp
  | x :: xs, i + 1, hi => by
    rw [chunksPos_cons] at hi ⊢
    simp only [List.length_cons] at hi
    rw [List.getElem?_cons_succ,
      chunksPos_getElem b (xs.drop b) i (by omega), List.drop_drop]
    have h1 : (i + 1) * (b + 1) = (i * (b + 1) + b) + 1 := by ring
    rw [h1, List.drop_succ_cons, Nat.add_comm b (i * (b + 1))]
termination_by l i _ => l.length
decreasing_by simp only [List.length_drop, List.length_cons]; omega

theorem chunksPos_sizes (b : Nat) :
    (l : List α) → ∀ c ∈ chunksPos b l, c.length ≤ b + 1
  | [] => by simp [chunksPos_nil]
  | x :: xs => by
    rw [chunksPos_cons]
    intro c hc
    rcases List.mem_cons.1 hc with h | h
    · subst h
      simpa using List.length_take_le _ _
    · exact chunksPos_sizes b (xs.drop b) c h
termination_by l => l.length
decreasing_by simp only [List.length_drop, List.length_cons]; omega

theorem chunksPos_full (b : Nat) (l : List α) (i : Nat)
    (hi : i + 1 < (chunksPos b l).length) :
    (chunksPos b l)[i]?.map List.length = some (b + 1) := by
  rw [chunksPos_getElem b l i (by omega)]
  rw [Option.map_some']
  congr 1
  rw [List.length_take, List.length_drop]
  rw [chunksPos_length] at hi
  have h2 : i + 2 ≤ (l.length + b) / (b + 1) := by omega
  have h3 : (i + 2) * (b + 1) ≤ l.length + b :=
    (Nat.le_div_iff_mul_le (by omega)).1 h2
  have h4 : (i + 2) * (b + 1) = i * (b + 1) + 2 * (b + 1) := by ring
  omega

theorem nextEnd_eq (bs : Int) (h1 : 1 ≤ bs) (l b : Nat) :
    nextEnd bs (l : Nat) (b : Int) = ((min (b + bs.toNat) l : Nat) : Int) := by
  unfold nextEnd
  split <;> push_cast <;> omega

theorem goSlice_cons (k : Nat) (hk : 1 ≤ k) (gs : List α) (b : Nat)
    (hb : b < gs.length) :
    goSlice gs (b : Int) ((min (b + k) gs.length : Nat) : Int) ::
      chunksPos (k - 1) (gs.drop (min (b + k) gs.length)) =
    chunksPos (k - 1) (gs.drop b) := by
  rcases h : gs.drop b with _ | ⟨y, ys⟩
  · exfalso
    have := congrArg List.length h
    simp only [List.length_drop, List.length_nil] at this
    omega
  · have hk1 : k - 1 + 1 = k := by omega
    rw [chunksPos_cons, hk1]
    congr 1
    · show goSlice gs (b : Int) ((min (b + k) gs.length : Nat) : Int) = _
      unfold goSlice
      have h2 : ((b : Int)).toNat = b := by omega
      have h3 : (((min (b + k) gs.length : Nat) : Int) - (b : Int)).toNat =
          min k (gs.length - b) := by omega
      rw [h2, h3, ← h]
      rcases le_or_lt k (gs.length - b) with h4 | h4
      · rw [Nat.min_eq_left h4]
      · rw [Nat.min_eq_right (by omega)]
        rw [List.take_of_length_le (by simp [List.length_drop]),
          List.take_of_length_le (by simp [List.length_drop]; omega)]
    · have h5 : ys.drop (k - 1) = gs.drop (b + k) := by
        have h6 : ys.drop (k - 1) = (y :: ys).drop k := by
          rcases k with _ | n
          · omega
          · simp [List.drop_succ_cons]
        rw [h6, ← h, List.drop_drop]
      rw [h5]
      rcases le_or_lt (b + k) gs.length with h7 | h7
      · rw [Nat.min_eq_left h7]
      · rw [Nat.min_eq_right (by omega)]
        rw [List.drop_eq_nil_of_le (by omega), List.drop_eq_nil_of_le (by omega)]

theorem chunkLoop_eq_chunksPos (bs : Int) (h1 : 1 ≤ bs) (gs : List α) :
    ∀ (fuel : Nat) (b : Nat), b ≤ gs.length → gs.length - b ≤ fuel →
      chunkLoop bs gs fuel (b : Int) (nextEnd bs gs.length (b : Int)) =
        some (chunksPos (bs.toNat - 1) (gs.drop b))
  | 0, b, hb, hf => by
    have hbl : b = gs.length := by omega
    subst hbl
    rw [chunkLoop, if_neg (by push_cast; omega), List.drop_length, chunksPos_nil]
  | fuel + 1, b, hb, hf => by
    rcases lt_or_eq_of_le hb with hlt | heq
    · rw [chunkLoop, if_pos (by push_cast; omega)]
      have hk : 1 ≤ bs.toNat := by omega
      rw [nextEnd_eq bs h1 gs.length b]
      rw [chunkLoop_eq_chunksPos bs h1 gs fuel (min (b + bs.toNat) gs.length)
        (by omega) (by omega), Option.map_some']
      rw [goSlice_cons bs.toNat hk gs b hlt]
    · subst heq
      rw [chunkLoop, if_neg (by push_cast; omega), List.drop_length, chunksPos_nil]

theorem chunks_eq (bs : Int) (h1 : 1 ≤ bs) (gs : List α) :
    chunks bs gs = some (chunksPos (bs.toNat - 1) gs) := by
  unfold chunks
  have h := chunkLoop_eq_chunksPos bs h1 gs gs.length 0 (by omega) (by omega)
  simpa using h

theorem chunkLoop_nonpos_none (bs : Int) (hb : bs ≤ 0) (gs : List α)
    (hg : gs ≠ []) :
    ∀ (fuel : Nat) (batch e : Int), batch ≤ 0 → e ≤ 0 →
      chunkLoop bs gs fuel batch e = none
  | 0, batch, e, hbt, he => by
    have hl : 0 < gs.length := List.length_pos.2 hg
    rw [chunkLoop, if_pos (by push_cast; omega)]
  | fuel + 1, batch, e, hbt, he => by
    have hl : 0 < gs.length := List.length_pos.2 hg
    have hne : nextEnd bs gs.length e ≤ 0 := by
      unfold nextEnd
      split <;> push_cast <;> omega
    rw [chunkLoop, if_pos (by push_cast; omega),
      chunkLoop_nonpos_none bs hb gs hg fuel e (nextEnd bs gs.length e) he hne,
      Option.map_none']

theorem chunks_nonpos (bs : Int) (hb : bs ≤ 0) (gs : List α) (hg : gs ≠ []) :
    ∀ fuel : Nat, chunkLoop bs gs fuel 0 (nextEnd bs gs.length 0) = none := by
  intro fuel
  have hne : nextEnd bs gs.length 0 ≤ 0 := by
    have hl : 0 < gs.length := List.length_pos.2 hg
    unfold nextEnd
    split <;> push_cast <;> omega
  exact chunkLoop_nonpos_none bs hb gs hg fuel 0 (nextEnd bs gs.length 0)
    (by omega) hne

/-- Both dialects expressed through `chunks` on a non-empty sample. -/
theorem oldBatch_ne_nil (p : Provider) (u : URL) (st : Int)
    (ms : List measurement) (hms : ms ≠ []) :
    oldBatcher.Batch ⟨p⟩ u st ms =
      ((chunks p.batchSize (ms.map measurement.Gauge)).map
        (fun cs => cs.map (mkOldRequest p
          (URL.resolvePath { u with user := none } oldBatcherPath) st u.user)),
       { u with user := none }) := by
  unfold oldBatcher.Batch
  rw [if_neg (by simp [hms])]

/-- Both dialects expressed through `chunks` on a non-empty sample. -/
theorem taggedBatch_ne_nil (p : Provider) (u : URL)
    (ms : List measurement) (hms : ms ≠ []) :
    taggedBatcher.Batch ⟨p⟩ u ms =
      ((chunks p.batchSize ms).map
        (fun cs => cs.map (mkTaggedRequest
          (URL.resolvePath { u with user := none } tagBatcherPath) u.user)),
       { u with user := none }) := by
  unfold taggedBatcher.Batch
  rw [if_neg (by simp [hms])]

/-! ### Claim theorems -/

/-- Claim C5: for every Measurement, the legacy projection to a Gauge
preserves name, period, count, sum, min, max, and sum-of-squares exactly, and
the result does not depend on (hence carries none of) the measurement's tags,
attributes, last, or standard-deviation fields. -/
theorem C5_gauge_projection (m : measurement) :
    m.Gauge =
      { Name := m.Name, Period := m.Period, Count := m.Count,
        Sum := m.Sum, Min := m.Min, Max := m.Max, SumSq := m.SumSq } ∧
    ∀ m' : measurement, m'.Name = m.Name → m'.Period = m.Period →
      m'.Count = m.Count → m'.Sum = m.Sum → m'.Min = m.Min → m'.Max = m.Max →
      m'.SumSq = m.SumSq → m'.Gauge = m.Gauge := by
  refine ⟨rfl, ?_⟩
  intro m' h1 h2 h3 h4 h5 h6 h7
  simp [measurement.Gauge, h1, h2, h3, h4, h5, h6, h7]

theorem C5_witness :
    mWit.Gauge =
      { Name := mWit.Name, Period := mWit.Period, Count := mWit.Count,
        Sum := mWit.Sum, Min := mWit.Min, Max := mWit.Max,
        SumSq := mWit.SumSq } ∧
    mWit2.Gauge = mWit.Gauge :=
  ⟨(C5_gauge_projection mWit).1,
   (C5_gauge_projection mWit).2 mWit2 rfl rfl rfl rfl rfl rfl rfl⟩

/-- Claim C6: for every call to Batch (either dialect) where the sampler
returns an empty measurement sequence, the result is zero requests and no
error (and the URL is untouched). -/
theorem C6_empty_sample (p : Provider) (u : URL) (st : Int) :
    oldBatcher.Batch ⟨p⟩ u st [] = (some [], u) ∧
    taggedBatcher.Batch ⟨p⟩ u [] = (some [], u) :=
  ⟨rfl, rfl⟩

/-- Claim C7: the standard-deviation helper computes
`sqrt((sumSquares − sum²/n)/n)`: `squareOfDistanceFromMean` is
`sumSquares − sum²/n`, `stddev` is the square root of its quotient by the
count, and `stddev 10 40 5 = 2`. -/
theorem C7_stddev :
    (∀ sum sumSquares n : ℝ,
      squareOfDistanceFromMean sum sumSquares n = sumSquares - sum ^ 2 / n) ∧
    (∀ (sum sumSquares : ℝ) (count : Int), 0 < count →
      stddev sum sumSquares count =
        Real.sqrt (squareOfDistanceFromMean sum sumSquares (count : ℝ) /
          (count : ℝ))) ∧
    stddev 10 40 5 = 2 := by
  refine ⟨fun _ _ _ => rfl, fun _ _ _ _ => rfl, ?_⟩
  unfold stddev squareOfDistanceFromMean
  have h : ((40 : ℝ) - (10 : ℝ) ^ 2 / (((5 : Int) : ℝ))) / (((5 : Int) : ℝ)) =
      4 := by
    push_cast
    norm_num
  rw [h, show (4 : ℝ) = 2 ^ 2 by norm_num, Real.sqrt_sq (by norm_num)]

theorem C7_witness :
    (0 : Int) < 5 ∧
    stddev 10 40 5 =
      Real.sqrt (squareOfDistanceFromMean 10 40 (((5 : Int) : ℝ)) /
        (((5 : Int) : ℝ))) :=
  ⟨by decide, C7_stddev.2.1 10 40 5 (by decide)⟩

/-- Claim C4: for every histogram accumulator whose count is zero, the
histogram reduction returns no gauges and leaves the accumulator completely
unchanged. -/
theorem C4_histogram_zero (h : Histogram) (period : Int) (hc : h.count = 0) :
    histogramMeasures h period = ([], h) := by
  unfold histogramMeasures
  rw [if_pos hc]

theorem C4_witness :
    hWit0.count = 0 ∧ histogramMeasures hWit0 60 = ([], hWit0) :=
  ⟨rfl, C4_histogram_zero hWit0 60 rfl⟩

/-- Claim C3: for every histogram accumulator with count > 0, one reduction
yields exactly 4 gauges: the aggregate gauge with the snapshotted name,
period, count, sum, min, max and sum-of-squares, followed by the 99th, 95th
and 50th percentile point gauges (metric-name-derived suffixes, count 1,
sum = min = max = the percentile value, sum-of-squares = its square); an
immediately subsequent reduction of the post-state yields zero gauges. -/
theorem C3_histogram_reduction (h : Histogram) (period period2 : Int)
    (hc : 0 < h.count) :
    (histogramMeasures h period).1 =
      [{ Name := h.metricName, Period := period, Count := h.count,
         Sum := h.sum, Min := h.min, Max := h.max, SumSq := h.sumsq },
       { Name := h.metricName ++ h.percentilePfx ++ "99", Period := period,
         Count := 1, Sum := h.quantile (99 / 100),
         Min := h.quantile (99 / 100), Max := h.quantile (99 / 100),
         SumSq := h.quantile (99 / 100) * h.quantile (99 / 100) },
       { Name := h.metricName ++ h.percentilePfx ++ "95", Period := period,
         Count := 1, Sum := h.quantile (95 / 100),
         Min := h.quantile (95 / 100), Max := h.quantile (95 / 100),
         SumSq := h.quantile (95 / 100) * h.quantile (95 / 100) },
       { Name := h.metricName ++ h.percentilePfx ++ "50", Period := period,
         Count := 1, Sum := h.quantile (50 / 100),
         Min := h.quantile (50 / 100), Max := h.quantile (50 / 100),
         SumSq := h.quantile (50 / 100) * h.quantile (50 / 100) }] ∧
    (histogramMeasures h period).1.length = 4 ∧
    (histogramMeasures (histogramMeasures h period).2 period2).1 = [] := by
  have hne : ¬h.count = 0 := by omega
  refine ⟨?_, ?_, ?_⟩ <;>
    simp [histogramMeasures, hne, Histogram.reset]

theorem C3_witness :
    0 < hWit3.count ∧
    ((histogramMeasures hWit3 60).1 =
      [{ Name := hWit3.metricName, Period := 60, Count := hWit3.count,
         Sum := hWit3.sum, Min := hWit3.min, Max := hWit3.max,
         SumSq := hWit3.sumsq },
       { Name := hWit3.metricName ++ hWit3.percentilePfx ++ "99", Period := 60,
         Count := 1, Sum := hWit3.quantile (99 / 100),
         Min := hWit3.quantile (99 / 100), Max := hWit3.quantile (99 / 100),
         SumSq := hWit3.quantile (99 / 100) * hWit3.quantile (99 / 100) },
       { Name := hWit3.metricName ++ hWit3.percentilePfx ++ "95", Period := 60,
         Count := 1, Sum := hWit3.quantile (95 / 100),
         Min := hWit3.quantile (95 / 100), Max := hWit3.quantile (95 / 100),
         SumSq := hWit3.quantile (95 / 100) * hWit3.quantile (95 / 100) },
       { Name := hWit3.metricName ++ hWit3.percentilePfx ++ "50", Period := 60,
         Count := 1, Sum := hWit3.quantile (50 / 100),
         Min := hWit3.quantile (50 / 100), Max := hWit3.quantile (50 / 100),
         SumSq := hWit3.quantile (50 / 100) * hWit3.quantile (50 / 100) }] ∧
    (histogramMeasures hWit3 60).1.length = 4 ∧
    (histogramMeasures (histogramMeasures hWit3 60).2 60).1 = []) :=
  ⟨by decide, C3_histogram_reduction hWit3 60 60 (by decide)⟩

/-- Claim C10: Batch (either dialect) mutates its caller-supplied URL: on
every call with a non-empty sample set and positive batch size, the user-info
of the URL object passed in is removed and this remains visible to the caller
after Batch returns, while all other fields of the caller's URL are left
unchanged (the path resolution happens on a separate derived URL). -/
theorem C10_url_mutation (p : Provider) (hB : 1 ≤ p.batchSize) (u : URL)
    (st : Int) (ms : List measurement) (hms : ms ≠ []) :
    (oldBatcher.Batch ⟨p⟩ u st ms).2 = { u with user := none } ∧
    (taggedBatcher.Batch ⟨p⟩ u ms).2 = { u with user := none } := by
  rw [oldBatch_ne_nil p u st ms hms, taggedBatch_ne_nil p u ms hms]
  exact ⟨rfl, rfl⟩

theorem C10_witness :
    1 ≤ pWit.batchSize ∧ msWit ≠ [] ∧
    ((oldBatcher.Batch ⟨pWit⟩ uWit 100 msWit).2 = { uWit with user := none } ∧
     (taggedBatcher.Batch ⟨pWit⟩ uWit msWit).2 =
       { uWit with user := none }) :=
  ⟨by decide, by simp [msWit],
   C10_url_mutation pWit (by decide) uWit 100 msWit (by simp [msWit])⟩

/-- Claim C2: for every endpoint URL carrying embedded user-info and every
non-empty sample set (with the provider's positive batch size), no request
returned by Batch (either dialect) carries that user-info in its URL — the
URL's user component is gone and its string form is exactly
`scheme://host/path` — and every returned request carries the extracted
username and password as HTTP Basic Auth credentials. -/
theorem C2_no_cred_leak (p : Provider) (hB : 1 ≤ p.batchSize) (u : URL)
    (ui : Userinfo) (hu : u.user = some ui) (st : Int) (ms : List measurement)
    (hms : ms ≠ []) : CredSpec p u ui st ms := by
  constructor
  · rw [oldBatch_ne_nil p u st ms hms]
    refine ⟨(chunksPos (p.batchSize.toNat - 1) (ms.map measurement.Gauge)).map
      (mkOldRequest p (URL.resolvePath { u with user := none } oldBatcherPath)
        st u.user), ?_, ?_⟩
    · rw [chunks_eq p.batchSize hB]
      rfl
    · intro r hr
      rcases List.mem_map.1 hr with ⟨c, _, rfl⟩
      refine ⟨rfl, ?_, ?_⟩
      · simp [mkOldRequest, URL.resolvePath, URL.toString]
      · simp [mkOldRequest, hu]
  · rw [taggedBatch_ne_nil p u ms hms]
    refine ⟨(chunksPos (p.batchSize.toNat - 1) ms).map
      (mkTaggedRequest (URL.resolvePath { u with user := none } tagBatcherPath)
        u.user), ?_, ?_⟩
    · rw [chunks_eq p.batchSize hB]
      rfl
    · intro r hr
      rcases List.mem_map.1 hr with ⟨c, _, rfl⟩
      refine ⟨rfl, ?_, ?_⟩
      · simp [mkTaggedRequest, URL.resolvePath, URL.toString]
      · simp [mkTaggedRequest, hu]

theorem C2_witness :
    1 ≤ pWit.batchSize ∧ uWit.user = some uiWit ∧ msWit ≠ [] ∧
    CredSpec pWit uWit uiWit 100 msWit :=
  ⟨by decide, rfl, by simp [msWit],
   C2_no_cred_leak pWit (by decide) uWit uiWit rfl 100 msWit
     (by simp [msWit])⟩

/-- Claim C9: for non-empty input, the chunking loop of Batch terminates if
and only if the configured batch size is at least 1; accordingly, on a
non-empty sample set Batch itself (either dialect) produces a result exactly
when the batch size is positive — positive batch size is a genuine
precondition for termination. -/
theorem C9_loop_termination (bs : Int) (gs : List gauge) (hg : gs ≠ [])
    (p : Provider) (u : URL) (st : Int) (ms : List measurement)
    (hms : ms ≠ []) :
    (BatchLoopTerminates bs gs ↔ 1 ≤ bs) ∧
    ((oldBatcher.Batch ⟨p⟩ u st ms).1.isSome ↔ 1 ≤ p.batchSize) ∧
    ((taggedBatcher.Batch ⟨p⟩ u ms).1.isSome ↔ 1 ≤ p.batchSize) := by
  have key : ∀ {β : Type} (l : List β), l ≠ [] → ∀ b : Int,
      BatchLoopTerminates b l ↔ 1 ≤ b := by
    intro β l hl b
    constructor
    · rintro ⟨fuel, hf⟩
      by_contra hb
      push_neg at hb
      rw [chunks_nonpos b (by omega) l hl fuel] at hf
      simp at hf
    · intro hb
      refine ⟨l.length, ?_⟩
      have h := chunkLoop_eq_chunksPos b hb l l.length 0 (by omega) (by omega)
      simp only [Nat.cast_zero, List.drop_zero] at h
      rw [h]
      rfl
  have hchunks : ∀ {β : Type} (l : List β), l ≠ [] → ∀ b : Int,
      (chunks b l).isSome ↔ 1 ≤ b := by
    intro β l hl b
    constructor
    · intro hs
      by_contra hb
      push_neg at hb
      unfold chunks at hs
      rw [chunks_nonpos b (by omega) l hl l.length] at hs
      simp at hs
    · intro hb
      rw [chunks_eq b hb]
      rfl
  refine ⟨key gs hg bs, ?_, ?_⟩
  · rw [oldBatch_ne_nil p u st ms hms]
    simpa using hchunks (ms.map measurement.Gauge) (by simp [hms]) p.batchSize
  · rw [taggedBatch_ne_nil p u ms hms]
    simpa using hchunks ms hms p.batchSize

theorem C9_witness :
    [gWit] ≠ ([] : List gauge) ∧ msWit ≠ [] ∧
    ((BatchLoopTerminates 2 [gWit] ↔ 1 ≤ (2 : Int)) ∧
     ((oldBatcher.Batch ⟨pWit⟩ uWit 100 msWit).1.isSome ↔
       1 ≤ pWit.batchSize) ∧
     ((taggedBatcher.Batch ⟨pWit⟩ uWit msWit).1.isSome ↔
       1 ≤ pWit.batchSize)) :=
  ⟨by simp, by simp [msWit],
   C9_loop_termination 2 [gWit] (by simp) pWit uWit 100 msWit
     (by simp [msWit])⟩

/-- The chunk list mapped through a request builder `f` whose body projection
`g` recovers the chunk: lengths, per-index contents, size bounds and
concatenation, in terms of the batch size `B ≥ 1`. -/
theorem mapChunks_spec {β γ : Type} (B : Nat) (hB : 1 ≤ B) (l : List β)
    (f : List β → γ) (g : γ → List β) (hfg : ∀ c, g (f c) = c) :
    ((chunksPos (B - 1) l).map f).length = (l.length + B - 1) / B ∧
    (∀ i : Nat, i < ((chunksPos (B - 1) l).map f).length →
      ((chunksPos (B - 1) l).map f)[i]?.map g =
        some ((l.drop (i * B)).take B)) ∧
    (∀ r ∈ (chunksPos (B - 1) l).map f, (g r).length ≤ B) ∧
    (∀ i : Nat, i + 1 < ((chunksPos (B - 1) l).map f).length →
      ((chunksPos (B - 1) l).map f)[i]?.map (fun r => (g r).length) =
        some B) ∧
    (((chunksPos (B - 1) l).map f).map g).flatten = l := by
  have hb1 : B - 1 + 1 = B := by omega
  have hlen2 : l.length + (B - 1) = l.length + B - 1 := by omega
  refine ⟨?_, ?_, ?_, ?_, ?_⟩
  · rw [List.length_map, chunksPos_length, hb1, hlen2]
  · intro i hi
    rw [List.length_map] at hi
    rw [List.getElem?_map, chunksPos_getElem (B - 1) l i hi, Option.map_some',
      Option.map_some', hfg, hb1]
  · intro r hr
    rcases List.mem_map.1 hr with ⟨c, hc, rfl⟩
    rw [hfg]
    have h := chunksPos_sizes (B - 1) l c hc
    omega
  · intro i hi
    rw [List.length_map] at hi
    rw [List.getElem?_map, chunksPos_getElem (B - 1) l i (by omega),
      Option.map_some', Option.map_some', hfg]
    have h := chunksPos_full (B - 1) l i hi
    rw [chunksPos_getElem (B - 1) l i (by omega), Option.map_some'] at h
    rw [hb1] at h ⊢
    exact h
  · rw [List.map_map]
    have h : (g ∘ f) = fun c => c := funext hfg
    rw [h, List.map_id', chunksPos_flatten]

/-- Claim C1: for every measurement sequence of length L and configured batch
size B > 0, Batch (legacy or tagged dialect) produces exactly `⌈L/B⌉`
requests, the i-th request's body carries the contiguous items
`[i*B, min((i+1)*B, L))`, every chunk has at most B items with only the last
possibly smaller, and the chunks concatenate in output order back to the
input sequence with no reordering. -/
theorem C1_batch_chunking (p : Provider) (hB : 1 ≤ p.batchSize) (u : URL)
    (st : Int) (ms : List measurement) : ChunkingSpec p u st ms := by
  have hBn : 1 ≤ p.batchSize.toNat := by omega
  unfold ChunkingSpec
  rcases eq_or_ne ms [] with rfl | hms
  · refine ⟨[], [], rfl, rfl, ?_, ?_, ?_, ?_, ?_, ?_, ?_, ?_, rfl, rfl⟩ <;>
      simp [Nat.div_eq_of_lt (show p.batchSize.toNat - 1 <
        p.batchSize.toNat by omega)]
  · have hgs : ms.map measurement.Gauge ≠ [] := by simp [hms]
    rw [oldBatch_ne_nil p u st ms hms, taggedBatch_ne_nil p u ms hms]
    simp only [chunks_eq p.batchSize hB, Option.map_some']
    have hO := mapChunks_spec p.batchSize.toNat hBn (ms.map measurement.Gauge)
      (mkOldRequest p (URL.resolvePath { u with user := none } oldBatcherPath)
        st u.user)
      (fun r => r.body.gauges) (fun c => rfl)
    have hT := mapChunks_spec p.batchSize.toNat hBn ms
      (mkTaggedRequest (URL.resolvePath { u with user := none } tagBatcherPath)
        u.user)
      (fun r => r.body.measurements) (fun c => rfl)
    refine ⟨_, _, rfl, rfl, ?_, ?_, ?_, ?_, ?_, ?_, ?_, ?_, ?_, ?_⟩
    · rw [hO.1, List.length_map]
    · exact hT.1
    · exact hO.2.1
    · exact hT.2.1
    · exact hO.2.2.1
    · exact hT.2.2.1
    · exact hO.2.2.2.1
    · exact hT.2.2.2.1
    · exact hO.2.2.2.2
    · exact hT.2.2.2.2

theorem C1_witness :
    1 ≤ pWit.batchSize ∧ ChunkingSpec pWit uWit 100 msWit :=
  ⟨by decide, C1_batch_chunking pWit (by decide) uWit 100 msWit⟩

/-! ### Mutual exclusion of the histogram critical section -/

theorem observerProg_ne_mid (m : Nat) : ¬OMid (observerProg m) := by
  rintro ⟨m', h | h⟩ <;> cases m <;> simp [observerProg] at h

theorem inv_step (c c' : Conf) (e : Tid × Act) (hs : Step c e c')
    (hinv : Inv c) : Inv c' := by
  obtain ⟨hR, hO, hor, hoo⟩ := hinv
  cases hs with
  | rlock r o =>
      dsimp only at hR hO hor hoo ⊢
      have hr : r = [Act.snapshot, Act.reset, Act.unlock] := by
        rcases hR with h | (h | h | h) | h
        · simpa [reducerProg] using h
        · exfalso; simp at h
        · exfalso; simp at h
        · exfalso; simp at h
        · exfalso; simp at h
      subst hr
      have hnoto : ¬OMid o := fun hm => Option.noConfusion (hoo.2 hm)
      refine ⟨Or.inr (Or.inl (Or.inl rfl)), hO,
        ⟨fun _ => Or.inl rfl, fun _ => rfl⟩,
        ⟨fun h => absurd h (by simp), fun hm => absurd hm hnoto⟩⟩
  | runlock r o =>
      dsimp only at hR hO hor hoo ⊢
      have hr : r = [] := by
        rcases hR with h | (h | h | h) | h
        · exfalso; simp [reducerProg] at h
        · exfalso; simp at h
        · exfalso; simp at h
        · simpa using h
        · exfalso; simp at h
      subst hr
      have hnoto : ¬OMid o := fun hm => by
        have h' := hoo.2 hm
        simp at h'
      refine ⟨Or.inr (Or.inr rfl), hO,
        ⟨fun h => absurd h (by simp), fun hm => absurd hm (by simp [RMid])⟩,
        ⟨fun h => absurd h (by simp), fun hm => absurd hm hnoto⟩⟩
  | rplain w r o a h1 h2 =>
      dsimp only at hR hO hor hoo ⊢
      rcases hR with h | (h | h | h) | h
      · exfalso
        rw [reducerProg] at h
        exact h1 (List.cons.inj h).1
      · obtain ⟨ha, hr⟩ := List.cons.inj h
        subst ha
        subst hr
        have hw : w = some Tid.reducer := hor.2 (Or.inl rfl)
        exact ⟨Or.inr (Or.inl (Or.inr (Or.inl rfl))), hO,
          ⟨fun _ => Or.inr (Or.inl rfl), fun _ => hw⟩, hoo⟩
      · obtain ⟨ha, hr⟩ := List.cons.inj h
        subst ha
        subst hr
        have hw : w = some Tid.reducer := hor.2 (Or.inr (Or.inl rfl))
        exact ⟨Or.inr (Or.inl (Or.inr (Or.inr rfl))), hO,
          ⟨fun _ => Or.inr (Or.inr rfl), fun _ => hw⟩, hoo⟩
      · exfalso
        exact h2 (List.cons.inj h).1
      · exfalso; simp at h
  | olock r o =>
      dsimp only at hR hO hor hoo ⊢
      have ho : ∃ m', o = Act.update :: Act.unlock :: observerProg m' := by
        rcases hO with ⟨m, hm⟩ | ⟨m, hm | hm⟩
        · cases m with
          | zero => exfalso; simp [observerProg] at hm
          | succ m' =>
              rw [observerProg] at hm
              exact ⟨m', (List.cons.inj hm).2⟩
        · exfalso; simp at hm
        · exfalso; simp at hm
      obtain ⟨m', ho⟩ := ho
      subst ho
      have hnr : ¬RMid r := fun hrm => Option.noConfusion (hor.2 hrm)
      refine ⟨hR, Or.inr ⟨m', Or.inl rfl⟩,
        ⟨fun h => absurd h (by simp), fun hrm => absurd hrm hnr⟩,
        ⟨fun _ => ⟨m', Or.inl rfl⟩, fun _ => rfl⟩⟩
  | ounlock r o =>
      dsimp only at hR hO hor hoo ⊢
      have ho : ∃ m', o = observerProg m' := by
        rcases hO with ⟨m, hm⟩ | ⟨m, hm | hm⟩
        · exfalso; cases m <;> simp [observerProg] at hm
        · exfalso; simp at hm
        · exact ⟨m, (List.cons.inj hm).2⟩
      obtain ⟨m', ho⟩ := ho
      subst ho
      have hnr : ¬RMid r := fun hrm => by
        have h' := hor.2 hrm
        simp at h'
      refine ⟨hR, Or.inl ⟨m', rfl⟩,
        ⟨fun h => absurd h (by simp), fun hrm => absurd hrm hnr⟩,
        ⟨fun h => absurd h (by simp),
         fun hm => absurd hm (observerProg_ne_mid m')⟩⟩
  | oplain w r o a h1 h2 =>
      dsimp only at hR hO hor hoo ⊢
      have ho : a = Act.update ∧ ∃ m', o = Act.unlock :: observerProg m' := by
        rcases hO with ⟨m, hm⟩ | ⟨m, hm | hm⟩
        · exfalso
          cases m with
          | zero => simp [observerProg] at hm
          | succ m' =>
              rw [observerProg] at hm
              exact h1 (List.cons.inj hm).1
        · exact ⟨(List.cons.inj hm).1, m, (List.cons.inj hm).2⟩
        · exfalso; exact h2 (List.cons.inj hm).1
      obtain ⟨ha, m', ho⟩ := ho
      subst ha
      subst ho
      have hw : w = some Tid.observer := hoo.2 ⟨m', Or.inl rfl⟩
      have hnr : ¬RMid r := fun hrm => by
        have h' := hor.2 hrm
        rw [hw] at h'
        simp at h'
      refine ⟨hR, Or.inr ⟨m', Or.inr rfl⟩,
        ⟨fun h => absurd h (by rw [hw]; simp), fun hrm => absurd hrm hnr⟩,
        ⟨fun _ => ⟨m', Or.inr rfl⟩, fun _ => hw⟩⟩

theorem inv_exec (c c' : Conf) (tr : List (Tid × Act)) (hex : Exec c tr c')
    (hinv : Inv c) : Inv c' := by
  induction hex with
  | nil _ => exact hinv
  | cons c c' c'' e tr hs _ ih => exact ih (inv_step _ _ _ hs hinv)

theorem exec_append (t1 : List (Tid × Act)) :
    ∀ (c c'' : Conf) (t2 : List (Tid × Act)), Exec c (t1 ++ t2) c'' →
      ∃ c', Exec c t1 c' ∧ Exec c' t2 c'' := by
  induction t1 with
  | nil =>
      intro c c'' t2 h
      exact ⟨c, Exec.nil c, h⟩
  | cons e t1 ih =>
      intro c c'' t2 h
      rw [List.cons_append] at h
      cases h with
      | cons _ cmid _ _ _ hs hrest =>
          rcases ih cmid c'' t2 hrest with ⟨c', h1, h2⟩
          exact ⟨c', Exec.cons _ _ _ _ _ hs h1, h2⟩

theorem step_snapshot (c c' : Conf)
    (hs : Step c (Tid.reducer, Act.snapshot) c') (hinv : Inv c) :
    c'.rprog = [Act.reset, Act.unlock] := by
  obtain ⟨hR, -, -, -⟩ := hinv
  cases hs with
  | rplain w r o a h1 h2 =>
      simp only [RMid, reducerProg] at hR
      rcases hR with h | h | h | h | h <;> simp_all

theorem no_update_before_reset (c c'' : Conf) (tr : List (Tid × Act))
    (hex : Exec c tr c'') (hinv : Inv c)
    (hr : c.rprog = [Act.reset, Act.unlock]) :
    ∀ j : Nat, tr[j]? = some (Tid.observer, Act.update) →
      ∃ i, i < j ∧ tr[i]? = some (Tid.reducer, Act.reset) := by
  obtain ⟨hR, hO, hor, hoo⟩ := hinv
  have howner : c.owner = some Tid.reducer := by
    apply hor.2
    rw [hr]
    exact Or.inr (Or.inl rfl)
  cases hex with
  | nil =>
      intro j hj
      simp at hj
  | cons _ cmid _ e tr hs hrest =>
      have he : e = (Tid.reducer, Act.reset) := by
        cases hs with
        | rlock r o => simp at howner
        | runlock r o => simp at hr
        | rplain w r o a h1 h2 =>
            simp only [] at hr
            obtain ⟨ha, -⟩ := List.cons.inj hr
            rw [ha]
        | olock r o => simp at howner
        | ounlock r o => simp at howner
        | oplain w r o a h1 h2 =>
            exfalso
            simp only [] at howner hoo hO
            rcases hO with ⟨m, hm⟩ | ⟨m, hm | hm⟩
            · cases m with
              | zero => simp [observerProg] at hm
              | succ m' =>
                  simp only [observerProg] at hm
                  exact h1 (by injection hm)
            · have := hoo.2 ⟨m, Or.inl hm⟩
              rw [howner] at this
              simp at this
            · exact h2 (by injection hm)
      intro j hj
      cases j with
      | zero =>
          rw [he] at hj
          simp at hj
      | succ j' => exact ⟨0, Nat.succ_pos j', by simp [he]⟩

theorem init_inv (n : Nat) : Inv ⟨none, reducerProg, observerProg n⟩ := by
  refine ⟨Or.inl rfl, Or.inl ⟨n, rfl⟩, ?_, ?_⟩
  · simp only []
    constructor
    · intro h
      simp at h
    · intro h
      rcases h with h | h | h <;> simp [reducerProg] at h
  · simp only []
    constructor
    · intro h
      simp at h
    · intro h
      exact absurd h (observerProg_ne_mid n)

/-- Claim C8: the histogram reduction performs the snapshot, the quantile
computation and the reset inside one exclusive critical section: in every
interleaving of the reduction (`reducerProg`, read off lines 104-124 of the
source) with any number of lock-guarded observation-recording calls, an
observer update that happens after the reduction's snapshot can only happen
after the reduction's reset — no observation interleaves between the
snapshot-read and the reset-write. -/
theorem C8_critical_section (n : Nat) (tr : List (Tid × Act)) (cEnd : Conf)
    (hex : Exec ⟨none, reducerProg, observerProg n⟩ tr cEnd) (i j : Nat)
    (hij : i < j) (hsnap : tr[i]? = some (Tid.reducer, Act.snapshot))
    (hupd : tr[j]? = some (Tid.observer, Act.update)) :
    ∃ k, i < k ∧ k < j ∧ tr[k]? = some (Tid.reducer, Act.reset) := by
  have hilen : i < tr.length := by
    by_contra hlen
    rw [List.getElem?_eq_none (by omega)] at hsnap
    exact Option.noConfusion hsnap
  have hdecomp : tr = tr.take i ++ tr[i] :: tr.drop (i + 1) := by
    conv_lhs => rw [← List.take_append_drop i tr]
    rw [List.getElem_cons_drop]
  have hi : tr[i] = (Tid.reducer, Act.snapshot) := by
    rw [List.getElem?_eq_getElem hilen] at hsnap
    exact Option.some.inj hsnap
  rw [hdecomp] at hex
  rcases exec_append (tr.take i) _ _ _ hex with ⟨c1, hex1, hex2⟩
  have hinv1 : Inv c1 := inv_exec _ _ _ hex1 (init_inv n)
  cases hex2 with
  | cons _ c2 _ _ _ hs hrest =>
      rw [hi] at hs
      have hinv2 : Inv c2 := inv_step _ _ _ hs hinv1
      have hr2 : c2.rprog = [Act.reset, Act.unlock] := step_snapshot _ _ hs hinv1
      have hupd' : (tr.drop (i + 1))[j - (i + 1)]? =
          some (Tid.observer, Act.update) := by
        rw [List.getElem?_drop]
        rw [show i + 1 + (j - (i + 1)) = j by omega]
        exact hupd
      rcases no_update_before_reset _ _ _ hrest hinv2 hr2 _ hupd'
        with ⟨i', hi', hreset⟩
      refine ⟨i + 1 + i', by omega, by omega, ?_⟩
      rw [List.getElem?_drop] at hreset
      exact hreset

/-- A run of the model realizing the hypotheses of the critical-section
theorem: the reduction completes, then one observation is recorded. -/
theorem execDemo :
    Exec ⟨none, reducerProg, observerProg 1⟩ trWit ⟨none, [], []⟩ := by
  show Exec ⟨none, [Act.lock, Act.snapshot, Act.reset, Act.unlock],
    [Act.lock, Act.update, Act.unlock]⟩
    [(Tid.reducer, Act.lock), (Tid.reducer, Act.snapshot),
     (Tid.reducer, Act.reset), (Tid.reducer, Act.unlock),
     (Tid.observer, Act.lock), (Tid.observer, Act.update),
     (Tid.observer, Act.unlock)] ⟨none, [], []⟩
  refine Exec.cons _ _ _ _ _ (Step.rlock _ _) ?_
  refine Exec.cons _ _ _ _ _ (Step.rplain _ _ _ _ (by simp) (by simp)) ?_
  refine Exec.cons _ _ _ _ _ (Step.rplain _ _ _ _ (by simp) (by simp)) ?_
  refine Exec.cons _ _ _ _ _ (Step.runlock _ _) ?_
  refine Exec.cons _ _ _ _ _ (Step.olock _ _) ?_
  refine Exec.cons _ _ _ _ _ (Step.oplain _ _ _ _ (by simp) (by simp)) ?_
  refine Exec.cons _ _ _ _ _ (Step.ounlock _ _) ?_
  exact Exec.nil _

theorem C8_witness :
    trWit[1]? = some (Tid.reducer, Act.snapshot) ∧
    trWit[5]? = some (Tid.observer, Act.update) ∧ 1 < 5 ∧
    ∃ k, 1 < k ∧ k < 5 ∧ trWit[k]? = some (Tid.reducer, Act.reset) :=
  ⟨rfl, rfl, by omega,
   C8_critical_section 1 trWit ⟨none, [], []⟩ execDemo 1 5 (by omega)
     rfl rfl⟩

end librato
